import Mathlib

/-!
Verification of the maktab rendering pipeline: a shallow embedding of the
content-processing, UI-overlay and manifest-loading code
(src/js/modules/content.js, src/js/modules/ui.js, src/js/main.js),
together with theorems settling the specification claims about it.
-/

set_option maxHeartbeats 1000000

namespace Maktab

/-- Characters of the Arabic Unicode block U+0600 to U+06FF, as matched by the
character class of the regular expression in wrapArabicLetters. -/
def isArabicChar (c : Char) : Bool :=
  0x600 ≤ c.toNat && c.toNat ≤ 0x6FF

/-- ASCII Latin letters, the a-zA-Z part of the other-script regular expression
of setRtlDirection. -/
def isLatinChar (c : Char) : Bool :=
  (0x41 ≤ c.toNat && c.toNat ≤ 0x5A) || (0x61 ≤ c.toNat && c.toNat ≤ 0x7A)

/-- Cyrillic letters, the two ranges of the other-script regular expression of
setRtlDirection (U+0410 to U+042F and U+0430 to U+044F). -/
def isCyrillicChar (c : Char) : Bool :=
  (0x410 ≤ c.toNat && c.toNat ≤ 0x42F) || (0x430 ≤ c.toNat && c.toNat ≤ 0x44F)

/-- Bengali letters U+0985 to U+09CE, the range of the Bengali regular
expressions of setRtlDirection and styleMixedLanguageLines. -/
def isBengaliChar (c : Char) : Bool :=
  0x985 ≤ c.toNat && c.toNat ≤ 0x9CE

/-- The full character class of the nonArabicRegex of setRtlDirection. -/
def isOtherScriptChar (c : Char) : Bool :=
  isLatinChar c || isCyrillicChar c || isBengaliChar c

/-- The JavaScript whitespace class (the characters matched by a \s regular
expression and removed by String.prototype.trim). -/
def isWS (c : Char) : Bool :=
  let n := c.toNat
  (9 ≤ n && n ≤ 13) || n == 32 || n == 0xA0 || n == 0x1680 ||
  (0x2000 ≤ n && n ≤ 0x200A) || n == 0x2028 || n == 0x2029 ||
  n == 0x202F || n == 0x205F || n == 0x3000 || n == 0xFEFF

/-- JavaScript String.prototype.trim on a character list. -/
def trimWS (s : List Char) : List Char :=
  ((s.dropWhile isWS).reverse.dropWhile isWS).reverse

/-- A DOM node as the content pipeline observes it: a text node carrying its
textContent, or an element carrying its tag name, class list, the click
payload installed on it (the argument a click listener passes to
openLetterModal, present only on the interactive cards), its dir attribute,
its style.direction and style.textAlign values, and its child nodes. -/
inductive Node where
  | text (s : List Char)
  | elem (tag : String) (classes : List String) (payload : Option (List Char))
      (dirAttr : String) (dirStyle : String) (alignStyle : String)
      (children : List Node)

mutual

/-- DOM textContent of a node. -/
def textContent : Node → List Char
  | .text s => s
  | .elem _ _ _ _ _ _ ch => textContentList ch

/-- Concatenated textContent of a list of sibling nodes. -/
def textContentList : List Node → List Char
  | [] => []
  | n :: ns => textContent n ++ textContentList ns

end

/-- Lowercasing of an ASCII letter, as tagName.toLowerCase acts on the ASCII
tag names compared in wrapArabicLetters. -/
def lowerChar (c : Char) : Char :=
  if 0x41 ≤ c.toNat && c.toNat ≤ 0x5A then Char.ofNat (c.toNat + 32) else c

/-- String lowercasing used for the tagName comparison. -/
def lowerString (s : String) : String :=
  String.mk (s.data.map lowerChar)

/-- The parts produced by text.split(arabicSequenceRegex) where the regular
expression is the capturing /([؀-ۿ]+)/: unmatched stretches and
captured maximal Arabic runs alternate, with empty unmatched stretches kept at
the boundaries, exactly as JavaScript String.prototype.split returns them.
Recursion is by fuel, with one unit spent per Arabic run found. -/
def jsSplitPartsF : Nat → List Char → List (List Char)
  | 0, s => [s]
  | fuel + 1, s =>
    let pre := s.takeWhile (fun c => !isArabicChar c)
    match s.dropWhile (fun c => !isArabicChar c) with
    | [] => [pre]
    | c :: cs =>
      pre :: ((c :: cs).takeWhile isArabicChar)
        :: jsSplitPartsF fuel ((c :: cs).dropWhile isArabicChar)

/-- text.split(/([؀-ۿ]+)/) from wrapArabicLetters. -/
def jsSplitParts (s : List Char) : List (List Char) :=
  jsSplitPartsF s.length s

/-- The clickable card wrapArabicLetters builds for an Arabic part: a span of
class arabic-letter-card whose textContent is the part and whose click
listener passes the part to openLetterModal. -/
def mkCard (run : List Char) : Node :=
  Node.elem ("span") ["arabic-letter-card"] (some run) ("") ("") ("") [Node.text run]

/-- The node wrapArabicLetters appends to the fragment for one nonempty part:
a card if the part matches the Arabic regular expression, a plain text node
otherwise. -/
def wrapPiece (p : List Char) : Node :=
  if p.any isArabicChar then mkCard p else Node.text p

/-- The replacement sequence wrapArabicLetters produces for one text node: if
the split yields more than one part, the nonempty parts each become a card or
a text node and replace the original node; otherwise the node stays as it is. -/
def wrapText (s : List Char) : List Node :=
  let parts := jsSplitParts s
  if 1 < parts.length then (parts.filter (fun p => !p.isEmpty)).map wrapPiece
  else [Node.text s]

/-- The recursive walk of wrapArabicLetters over a child-node list: text nodes
are replaced by their replacement sequences, elements other than code are
processed recursively in place, and code elements are left untouched. -/
def wrapChildren : List Node → List Node
  | [] => []
  | Node.text s :: rest => wrapText s ++ wrapChildren rest
  | Node.elem tag cls pl da ds ta ch :: rest =>
    (if lowerString tag = ("code") then [Node.elem tag cls pl da ds ta ch]
     else [Node.elem tag cls pl da ds ta (wrapChildren ch)]) ++ wrapChildren rest

/-- wrapArabicLetters of content.js: processes the child nodes of the given
element. -/
def wrapArabicLetters : Node → Node
  | Node.text s => Node.text s
  | Node.elem tag cls pl da ds ta ch => Node.elem tag cls pl da ds ta (wrapChildren ch)

/-- The click payload carried by a node, when it is one of the interactive
cards. -/
def payloadOf : Node → Option (List Char)
  | Node.elem _ _ pl _ _ _ _ => pl
  | _ => none

/-- The click payloads of the interactive cards of a node list, in order. -/
def cardPayloads (l : List Node) : List (List Char) :=
  l.filterMap payloadOf

/-- The class list of a node (empty for a text node). -/
def elemClasses : Node → List String
  | Node.elem _ cls _ _ _ _ _ => cls
  | _ => []

/-- Modelled from the spec: the maximal runs of Arabic-range characters of a
string, in order, the notion the specification quantifies over when it says
each maximal Arabic run becomes exactly one interactive element. -/
def specMaximalArabicRuns : Nat → List Char → List (List Char)
  | 0, _ => []
  | _ + 1, [] => []
  | fuel + 1, c :: cs =>
    if isArabicChar c then
      (c :: cs.takeWhile isArabicChar) :: specMaximalArabicRuns fuel (cs.dropWhile isArabicChar)
    else specMaximalArabicRuns fuel cs

/-- The maximal Arabic runs of a string (fuel instantiated). -/
def specArabicRuns (s : List Char) : List (List Char) :=
  specMaximalArabicRuns s.length s

/-- The condition under which setRtlDirection restyles a block: its text has
an Arabic character and no character of the other-script class. -/
def rtlCond (t : List Char) : Bool :=
  t.any isArabicChar && !(t.any isOtherScriptChar)

mutual

/-- setRtlDirection of content.js acting on one node of the rendered tree:
each p, li or blockquote element whose text satisfies rtlCond gets
style.direction rtl and style.textAlign right when the text has a hyphen and
center otherwise; everything else keeps its styles. All descendants are
processed, as querySelectorAll visits them. -/
def setRtlNode : Node → Node
  | Node.text s => Node.text s
  | Node.elem tag cls pl da ds ta ch =>
    if (tag == "p" || tag == "li" || tag == "blockquote")
        && rtlCond (textContentList ch) then
      Node.elem tag cls pl da ("rtl")
        (if (textContentList ch).contains ('-') then "right" else "center")
        (setRtlList ch)
    else Node.elem tag cls pl da ds ta (setRtlList ch)

/-- setRtlNode mapped over sibling nodes. -/
def setRtlList : List Node → List Node
  | [] => []
  | n :: ns => setRtlNode n :: setRtlList ns

end

/-- setRtlDirection of content.js: restyles the qualifying block descendants
of the container. -/
def setRtlDirection : Node → Node
  | Node.text s => Node.text s
  | Node.elem tag cls pl da ds ta ch => Node.elem tag cls pl da ds ta (setRtlList ch)

/-- Whether a node is one of the interactive Arabic cards, as the
classList.contains check of styleMixedLanguageLines sees it. -/
def isCardNode : Node → Bool
  | Node.elem _ cls _ _ _ _ _ => cls.contains ("arabic-letter-card")
  | _ => false

/-- Whether a node is an element node. -/
def isElemNode : Node → Bool
  | Node.elem _ _ _ _ _ _ _ => true
  | _ => false

/-- Whether a node is a text node whose content trims to the empty string,
the whitespace-only text nodes the peel loop of styleMixedLanguageLines also
moves. -/
def isWsTextNode : Node → Bool
  | Node.text s => (trimWS s).isEmpty
  | _ => false

/-- A node the peel loop of styleMixedLanguageLines moves: an Arabic card or
a whitespace-only text node. -/
def isMovableNode (n : Node) : Bool :=
  isCardNode n || isWsTextNode n

mutual

/-- el.querySelector(arabic-letter-card) seen as a Boolean on one descendant
subtree: the node itself or one of its descendants is a card. -/
def hasCardNode : Node → Bool
  | Node.text _ => false
  | Node.elem tag cls pl da ds ta ch =>
    isCardNode (Node.elem tag cls pl da ds ta ch) || hasCardList ch

/-- hasCardNode over a list of sibling subtrees. -/
def hasCardList : List Node → Bool
  | [] => false
  | n :: ns => hasCardNode n || hasCardList ns

end

/-- el.lastElementChild: the last child that is an element node. -/
def lastElemChild (ns : List Node) : Option Node :=
  ns.reverse.find? isElemNode

/-- The maximal suffix of the child list consisting of cards and
whitespace-only text nodes: exactly the nodes the peel loop of
styleMixedLanguageLines moves into the right wrapper, in original order. -/
def trailingRun (ns : List Node) : List Node :=
  (ns.reverse.takeWhile isMovableNode).reverse

/-- The children left after the peel loop stops, in original order. -/
def leadingRest (ns : List Node) : List Node :=
  (ns.reverse.dropWhile isMovableNode).reverse

/-- The test of styleMixedLanguageLines on a block: it has a card descendant,
Bengali text, and its last element child is a card. -/
def mixedCond (ns : List Node) : Bool :=
  hasCardList ns && (textContentList ns).any isBengaliChar &&
    (match lastElemChild ns with
     | some n => isCardNode n
     | none => false)

/-- The body of the forEach of styleMixedLanguageLines acting on one node: a
p or li element passing mixedCond whose peel loop moves at least one node is
rebuilt as a left bengali-text wrapper holding the remaining children
followed by a right rtl arabic-group wrapper holding the peeled trailing run,
and is marked mixed-language-line; every other node is left as it is. -/
def styleMixedElem : Node → Node
  | Node.text s => Node.text s
  | Node.elem tag cls pl da ds ta ch =>
    if (tag == "p" || tag == "li") && mixedCond ch then
      if (trailingRun ch).isEmpty then Node.elem tag cls pl da ds ta ch
      else
        Node.elem tag (cls ++ ["mixed-language-line"]) pl da ds ta
          [Node.elem ("span") ["bengali-text"] none ("") ("") ("") (leadingRest ch),
           Node.elem ("span") ["arabic-group"] none ("rtl") ("") ("") (trailingRun ch)]
    else Node.elem tag cls pl da ds ta ch

mutual

/-- styleMixedLanguageLines acting on every block of a subtree. -/
def styleMixedNode : Node → Node
  | Node.text s => Node.text s
  | Node.elem tag cls pl da ds ta ch =>
    styleMixedElem (Node.elem tag cls pl da ds ta (styleMixedList ch))

/-- styleMixedNode over sibling subtrees. -/
def styleMixedList : List Node → List Node
  | [] => []
  | n :: ns => styleMixedNode n :: styleMixedList ns

end

/-- styleMixedLanguageLines of content.js on a container: restructures the
qualifying p and li descendants. -/
def styleMixedLanguageLines : Node → Node
  | Node.text s => Node.text s
  | Node.elem tag cls pl da ds ta ch => Node.elem tag cls pl da ds ta (styleMixedList ch)

/-- Position of the last newline in a character list, if any; this is the
greedy backtracking choice the second whitespace group of the section
delimiter regular expression makes before its final newline. -/
def lastNewlineIdx : List Char → Option Nat
  | [] => none
  | c :: cs =>
    match lastNewlineIdx cs with
    | some j => some (j + 1)
    | none => if c = '\n' then some 0 else none

/-- The match the section-delimiter regular expression of loadMarkdown makes
at the start of the string, if any, returned as the matched delimiter and the
remainder. The pattern is a newline, then greedy whitespace, then three
hyphens, then greedy whitespace ending in a final newline. -/
def matchDelimAt (s : List Char) : Option (List Char × List Char) :=
  match s with
  | [] => none
  | c0 :: rest =>
    if c0 = '\n' then
      match rest.dropWhile isWS with
      | d1 :: d2 :: d3 :: r3 =>
        if d1 = '-' ∧ d2 = '-' ∧ d3 = '-' then
          match lastNewlineIdx (r3.takeWhile isWS) with
          | some j =>
            some ('\n' :: (rest.takeWhile isWS ++
                '-' :: '-' :: '-' :: ((r3.takeWhile isWS).take j ++ ['\n'])),
              r3.drop (j + 1))
          | none => none
        else none
      | _ => none
    else none

/-- The scanner behind md.split of loadMarkdown: it walks the text, cuts a
segment at every delimiter match, and returns the segments together with the
matched delimiters. Recursion is by fuel, one unit per consumed character or
matched delimiter. -/
def splitMdAuxF : Nat → List Char → List Char → List (List Char) × List (List Char)
  | _, acc, [] => ([acc.reverse], [])
  | 0, acc, s => ([acc.reverse ++ s], [])
  | fuel + 1, acc, c :: rest =>
    match matchDelimAt (c :: rest) with
    | some (d, r) =>
      let res := splitMdAuxF fuel [] r
      (acc.reverse :: res.1, d :: res.2)
    | none => splitMdAuxF fuel (c :: acc) rest

/-- The segments of md.split of loadMarkdown. -/
def splitMd (md : List Char) : List (List Char) :=
  (splitMdAuxF md.length [] md).1

/-- The delimiters removed by md.split of loadMarkdown, in order. -/
def splitMdDelims (md : List Char) : List (List Char) :=
  (splitMdAuxF md.length [] md).2

/-- Rebuilding a string from split segments and the delimiters removed
between them. -/
def interleave : List (List Char) → List (List Char) → List Char
  | [], _ => []
  | s :: _, [] => s
  | s :: segs, d :: ds => s ++ d ++ interleave segs ds

/-- Modelled from the spec: the shape of a section delimiter, a three-hyphen
marker surrounded by optional whitespace and bounded by newlines. -/
def DelimShape (d : List Char) : Prop :=
  ∃ w1 w2, w1.all isWS = true ∧ w2.all isWS = true ∧
    d = '\n' :: (w1 ++ '-' :: '-' :: '-' :: (w2 ++ ['\n']))

/-- The card sources loadMarkdown renders: one entry per section whose trim
is nonempty, in section order; each entry is the raw markup the content-card
container wraps (after conversion by the external marked library). -/
def loadMarkdownCards (md : List Char) : List (List Char) :=
  (splitMd md).filterMap
    (fun sec => if (trimWS sec).isEmpty then none else some sec)

/-- A fetch of the chapter file as loadMarkdown observes it: a response with
a status and body, or a transport failure (a rejected fetch). -/
inductive FetchResult where
  | success (status : Nat) (body : List Char)
  | failure

/-- res.ok: the status is in the 200 to 299 range. -/
def resOk (status : Nat) : Bool :=
  200 ≤ status && status ≤ 299

/-- Whether the chapter fetch failed in the sense of the error path of
loadMarkdown: a transport error or a non-success status. -/
def isFailedFetch : FetchResult → Bool
  | FetchResult.success st _ => !resOk st
  | FetchResult.failure => true

/-- What the content area holds after loadMarkdown finishes. -/
inductive ContentState where
  | cards (secs : List (List Char))
  | errorMessage (msg : List Char)

/-- The observable outcome of one loadMarkdown call: the final content state,
whether the returned promise resolved (rather than rejected), how many errors
were logged, and how many fetches were issued. -/
structure LoadResult where
  content : ContentState
  resolved : Bool
  logCount : Nat
  fetchCount : Nat

/-- The error markup the catch branch of loadMarkdown leaves in place of the
content. -/
def failMsg (filename : List Char) : List Char :=
  ("<em>Failed to load file: ").toList ++ filename ++ (".</em>").toList

/-- loadMarkdown of content.js, as a function of the fetch outcome: a success
status renders the cards of the body; any failure is caught, logged once, and
replaced by the single error message; the promise always resolves and exactly
one fetch is issued either way. -/
def loadMarkdownRun (filename : List Char) (r : FetchResult) : LoadResult :=
  match r with
  | FetchResult.success st body =>
    if resOk st then ⟨ContentState.cards (loadMarkdownCards body), true, 0, 1⟩
    else ⟨ContentState.errorMessage (failMsg filename), true, 1, 1⟩
  | FetchResult.failure => ⟨ContentState.errorMessage (failMsg filename), true, 1, 1⟩

/-- The three-script name record of a letter in the letterData table of
ui.js. -/
structure LetterName where
  bengali : List Char
  english : List Char
  arabic : List Char

/-- One record of the letterData table of ui.js. -/
structure LetterInfo where
  makhraj : Nat
  name : LetterName

/-- The letterData table of ui.js. -/
def letterTable : List (Char × LetterInfo) :=
  [ ('ا', ⟨16, ⟨("আলিফ").toList, ("Alif").toList, ("ألف").toList⟩⟩),
    ('ب', ⟨15, ⟨("বা").toList, ("Ba").toList, ("باء").toList⟩⟩),
    ('ت', ⟨11, ⟨("তা").toList, ("Ta").toList, ("تاء").toList⟩⟩),
    ('ث', ⟨13, ⟨("ছা").toList, ("Tha").toList, ("ثاء").toList⟩⟩),
    ('ج', ⟨6, ⟨("জিম").toList, ("Jim").toList, ("جيم").toList⟩⟩),
    ('ح', ⟨2, ⟨("হা").toList, ("Ha").toList, ("حاء").toList⟩⟩),
    ('خ', ⟨3, ⟨("খ").toList, ("Kha").toList, ("خاء").toList⟩⟩),
    ('د', ⟨11, ⟨("দাল").toList, ("Dal").toList, ("دال").toList⟩⟩),
    ('ذ', ⟨13, ⟨("যাল").toList, ("Dhal").toList, ("ذال").toList⟩⟩),
    ('ر', ⟨10, ⟨("র").toList, ("Ra").toList, ("راء").toList⟩⟩),
    ('ز', ⟨12, ⟨("যা").toList, ("Zay").toList, ("زاي").toList⟩⟩),
    ('س', ⟨12, ⟨("সিন").toList, ("Sin").toList, ("سين").toList⟩⟩),
    ('ش', ⟨6, ⟨("শিন").toList, ("Shin").toList, ("شين").toList⟩⟩),
    ('ص', ⟨12, ⟨("সদ").toList, ("Sad").toList, ("صاد").toList⟩⟩),
    ('ض', ⟨7, ⟨("দদ").toList, ("Dad").toList, ("ضاد").toList⟩⟩),
    ('ط', ⟨11, ⟨("ত").toList, ("Ta\x27").toList, ("طاء").toList⟩⟩),
    ('ظ', ⟨13, ⟨("য").toList, ("Dha\x27").toList, ("ظاء").toList⟩⟩),
    ('ع', ⟨2, ⟨("আইন").toList, ("Ayn").toList, ("عين").toList⟩⟩),
    ('غ', ⟨3, ⟨("গইন").toList, ("Ghayn").toList, ("غين").toList⟩⟩),
    ('ف', ⟨14, ⟨("ফা").toList, ("Fa").toList, ("فاء").toList⟩⟩),
    ('ق', ⟨4, ⟨("কফ").toList, ("Qaf").toList, ("قاف").toList⟩⟩),
    ('ك', ⟨5, ⟨("কাফ").toList, ("Kaf").toList, ("كاف").toList⟩⟩),
    ('ل', ⟨8, ⟨("লাম").toList, ("Lam").toList, ("لام").toList⟩⟩),
    ('م', ⟨15, ⟨("মিম").toList, ("Mim").toList, ("ميم").toList⟩⟩),
    ('ن', ⟨9, ⟨("নুন").toList, ("Nun").toList, ("نون").toList⟩⟩),
    ('و', ⟨15, ⟨("ওয়াও").toList, ("Waw").toList, ("واو").toList⟩⟩),
    ('ه', ⟨1, ⟨("হা").toList, ("Ha").toList, ("هاء").toList⟩⟩),
    ('ء', ⟨1, ⟨("হামজা").toList, ("Hamza").toList, ("همزة").toList⟩⟩),
    ('ي', ⟨6, ⟨("ইয়া").toList, ("Ya").toList, ("ياء").toList⟩⟩) ]

/-- letterData lookup of ui.js: the record stored under a single letter, if
any. -/
def letterData (c : Char) : Option LetterInfo :=
  (letterTable.find? (fun e => e.1 == c)).map (fun e => e.2)

/-- The Bengali digit characters indexed by digit value, from
toBengaliNumerals of ui.js. -/
def bengaliNumerals : List Char :=
  ['০', '১', '২', '৩', '৪', '৫', '৬', '৭', '৮', '৯']

/-- toBengaliNumerals of ui.js: the decimal digits of the number, each mapped
to its Bengali numeral. -/
def toBengaliNumerals (n : Nat) : List Char :=
  (Nat.toDigits 10 n).map (fun d => bengaliNumerals.getD (d.toNat - 48) ('X'))

/-- letter.split of ui.js joined back with a plus between characters, the
composition display of the combined-letter view. -/
def joinWithPlus : List Char → List Char
  | [] => []
  | [c] => [c]
  | c :: rest => c :: (' ' :: '+' :: ' ' :: joinWithPlus rest)

/-- What the overlay body of openLetterModal holds: the composition text of
the combined-letter view, or the blocks of the single-letter view — the
optional three-script name block, the displayed letter, the three
combination examples, the tripled positional form, and the optional
makhraj box holding the Bengali-numeral articulation index. -/
inductive ModalView where
  | multi (body : List Char)
  | single (nameBlock : Option LetterName) (letterDisplay : Char)
      (combos : List (List Char)) (positional : List Char)
      (makhrajBox : Option (List Char))

/-- openLetterModal of ui.js as the view it renders for a payload. The
combined view joins the characters with plus signs and appends the original
run after an equals sign; the single view looks the letter up in letterData
and renders whichever sub-blocks the record provides, the combination
examples with alif, waw and ya, and the tripled form. -/
def openLetterModal (letter : List Char) : ModalView :=
  if 1 < letter.length then
    ModalView.multi (joinWithPlus letter ++ (" = ").toList ++ letter)
  else
    match letter with
    | [c] =>
      (match letterData c with
       | some i =>
         ModalView.single (some i.name) c
           [[c, 'ا'], [c, 'و'], [c, 'ي']] [c, c, c]
           (if i.makhraj == 0 then none else some (toBengaliNumerals i.makhraj))
       | none =>
         ModalView.single none c [[c, 'ا'], [c, 'و'], [c, 'ي']] [c, c, c] none)
    | _ => ModalView.single none (' ') [] [] none

/-- A JavaScript value as the manifest handler of main.js can encounter it:
the JSON values res.json may resolve to (null, booleans, numbers, strings,
arrays, objects — object keys are distinct after parsing) together with the
undefined value produced by reading an absent property. -/
inductive JsValue where
  | undef
  | null
  | bool (b : Bool)
  | num (n : Int)
  | str (s : List Char)
  | arr (elems : List JsValue)
  | obj (fields : List (List Char × JsValue))

/-- JavaScript property read v.name: none models the TypeError thrown when
the base is null or undefined; an object yields the field value or undefined;
arrays and strings expose their length property; any other base yields
undefined. -/
def getMember : JsValue → List Char → Option JsValue
  | JsValue.undef, _ => none
  | JsValue.null, _ => none
  | JsValue.obj fields, name =>
    some ((((fields.find? (fun f => f.1 == name)).map (fun f => f.2))).getD JsValue.undef)
  | JsValue.arr elems, name =>
    some (if name = ("length").toList then JsValue.num elems.length else JsValue.undef)
  | JsValue.str s, name =>
    some (if name = ("length").toList then JsValue.num s.length else JsValue.undef)
  | JsValue.bool _, _ => some JsValue.undef
  | JsValue.num _, _ => some JsValue.undef

/-- JavaScript truthiness, as the short-circuit of data.chapters applies
it. -/
def truthy : JsValue → Bool
  | JsValue.undef => false
  | JsValue.null => false
  | JsValue.bool b => b
  | JsValue.num n => !(n == 0)
  | JsValue.str s => !s.isEmpty
  | JsValue.arr _ => true
  | JsValue.obj _ => true

/-- The strict comparison chapters.length === 0: true exactly on the number
zero. -/
def strictEqZero : Option JsValue → Bool
  | some (JsValue.num n) => n == 0
  | _ => false

/-- A property read that cannot throw, for bases other than null and
undefined: the value, or undefined. -/
def memberOrUndef (e : JsValue) (name : List Char) : JsValue :=
  (getMember e name).getD JsValue.undef

/-- One sidebar item the forEach of main.js builds: the values read from
chapter.title (interpolated into the item markup) and chapter.file (stored
in the dataset); a non-record element leaves both undefined, which the
template renders as the text undefined. -/
structure NavItem where
  title : JsValue
  file : JsValue

/-- The state of the chapter navigation list after the manifest is handled. -/
inductive NavState where
  | untouched
  | noChaptersMsg
  | chapterItems (items : List NavItem)

/-- The observable outcome of handling the manifest: the navigation state,
the error message placed in the content area if any (none means the content
area is untouched by this path), and how many errors were logged. -/
structure ManifestOutcome where
  nav : NavState
  contentMsg : Option (List Char)
  logCount : Nat

/-- The error markup the catch branch of the manifest fetch leaves in the
content area. -/
def manifestErrMsg : List Char :=
  ("<em>Could not load chapter list. Make sure \x27chapters/chapters.json\x27 exists and is valid.</em>").toList

/-- The manifest fetch as the DOMContentLoaded handler of main.js observes
it: a failure (network error, or res.json rejecting on an unparseable body),
or the parsed JSON body. -/
inductive ManifestResult where
  | failure
  | success (body : JsValue)

/-- The forEach of main.js over the chapters array: each element's title and
file are read and an item is appended; reading a property of a null (or
undefined) element throws, which the promise chain routes to the catch
branch — the items appended so far remain, the error message lands in the
content area, and the error is logged. -/
def buildNavItems : List JsValue → List NavItem → ManifestOutcome
  | [], acc => ⟨NavState.chapterItems acc.reverse, none, 0⟩
  | e :: rest, acc =>
    match getMember e (("title").toList) with
    | none => ⟨NavState.chapterItems acc.reverse, some manifestErrMsg, 1⟩
    | some t =>
      match getMember e (("file").toList) with
      | none => ⟨NavState.chapterItems acc.reverse, some manifestErrMsg, 1⟩
      | some f => buildNavItems rest (⟨t, f⟩ :: acc)

/-- The then callback of the manifest fetch of main.js on the parsed body:
data.chapters is read (throwing on a null body), defaulted to an empty array
when falsy, the no-chapters entry is shown when its length compares strictly
equal to zero, and otherwise forEach builds the items — a value without
forEach (any non-array) throws. Every throw is caught by the catch branch,
which logs once and puts the error message in the content area only. -/
def runManifestThen (data : JsValue) : ManifestOutcome :=
  match getMember data (("chapters").toList) with
  | none => ⟨NavState.untouched, some manifestErrMsg, 1⟩
  | some chField =>
    let chapters := if truthy chField then chField else JsValue.arr []
    if strictEqZero (getMember chapters (("length").toList)) then
      ⟨NavState.noChaptersMsg, none, 0⟩
    else
      match chapters with
      | JsValue.arr elems => buildNavItems elems []
      | _ => ⟨NavState.untouched, some manifestErrMsg, 1⟩

/-- The manifest handling of main.js as a function of the fetch outcome: a
rejected fetch or parse goes straight to the catch branch; a parsed body
runs the then callback (whose own throws also end in the catch branch). -/
def handleManifest : ManifestResult → ManifestOutcome
  | ManifestResult.failure => ⟨NavState.untouched, some manifestErrMsg, 1⟩
  | ManifestResult.success data => runManifestThen data

/-! ### Helper lemmas about the segmentation model -/

/-- The head of a nonempty dropWhile result fails the predicate. -/
theorem dropWhile_head_false {α : Type} (p : α → Bool) :
    ∀ {l : List α} {c : α} {cs : List α}, l.dropWhile p = c :: cs → p c = false := by
  intro l
  induction l with
  | nil => intro c cs h; cases h
  | cons a as ih =>
    intro c cs h
    rw [List.dropWhile_cons] at h
    by_cases ha : p a = true
    · exact ih (by simpa [ha] using h)
    · have ha' : p a = false := by simpa using ha
      simp [ha'] at h
      rcases h with ⟨h1, _⟩
      rw [← h1]; exact ha'

/-- takeWhile of a list all whose elements satisfy the predicate. -/
theorem takeWhile_of_all {α : Type} (p : α → Bool) :
    ∀ {l : List α}, l.all p = true → l.takeWhile p = l := by
  intro l h
  exact List.takeWhile_eq_self_iff.mpr (by simpa [List.all_eq_true] using h)

/-- dropWhile of a list all whose elements satisfy the predicate. -/
theorem dropWhile_of_all {α : Type} (p : α → Bool) :
    ∀ {l : List α}, l.all p = true → l.dropWhile p = [] := by
  intro l h
  exact List.dropWhile_eq_nil_iff.mpr (by simpa [List.all_eq_true] using h)

/-- takeWhile over an append whose first part satisfies the predicate
throughout. -/
theorem takeWhile_append_all {α : Type} (p : α → Bool) :
    ∀ (l1 l2 : List α), l1.all p = true →
      (l1 ++ l2).takeWhile p = l1 ++ l2.takeWhile p := by
  intro l1
  induction l1 with
  | nil => intro l2 _; simp
  | cons a l1 ih =>
    intro l2 h
    have ha : p a = true := by simp [List.all_eq_true] at h; exact h.1
    have h1 : l1.all p = true := by simp [List.all_eq_true] at h ⊢; exact h.2
    simp [List.takeWhile_cons, ha, ih l2 h1]

/-- dropWhile over an append whose first part satisfies the predicate
throughout. -/
theorem dropWhile_append_all {α : Type} (p : α → Bool) :
    ∀ (l1 l2 : List α), l1.all p = true →
      (l1 ++ l2).dropWhile p = l2.dropWhile p := by
  intro l1
  induction l1 with
  | nil => intro l2 _; simp
  | cons a l1 ih =>
    intro l2 h
    have ha : p a = true := by simp [List.all_eq_true] at h; exact h.1
    have h1 : l1.all p = true := by simp [List.all_eq_true] at h ⊢; exact h.2
    simp [List.dropWhile_cons, ha, ih l2 h1]

/-- A list whose head (if any) fails the predicate is untouched by
dropWhile and yields an empty takeWhile. -/
theorem dropWhile_of_head_false {α : Type} (p : α → Bool) :
    ∀ {l : List α}, l.takeWhile p = [] → l.dropWhile p = l := by
  intro l h
  cases l with
  | nil => simp
  | cons a as =>
    rw [List.takeWhile_cons] at h
    by_cases ha : p a = true
    · simp [ha] at h
    · have ha' : p a = false := by simpa using ha
      simp [List.dropWhile_cons, ha']

/-- takeWhile of a dropWhile by the same predicate is empty. -/
theorem takeWhile_dropWhile_nil {α : Type} (p : α → Bool) (l : List α) :
    (l.dropWhile p).takeWhile p = [] := by
  cases h : l.dropWhile p with
  | nil => simp
  | cons c cs =>
    have hc : p c = false := dropWhile_head_false p h
    simp [List.takeWhile_cons, hc]

/-- Flatten ignores the empty entries dropped by the nonempty filter of
wrapArabicLetters. -/
theorem flatten_filter_nonempty :
    ∀ (l : List (List Char)),
      (l.filter (fun p => !p.isEmpty)).flatten = l.flatten := by
  intro l
  induction l with
  | nil => rfl
  | cons a as ih =>
    cases a with
    | nil => simpa using ih
    | cons c cs => simpa using ih

/-- The split parts flatten back to the original text (fuel version). -/
theorem jsSplitPartsF_flatten :
    ∀ (fuel : Nat) (s : List Char), s.length ≤ fuel →
      (jsSplitPartsF fuel s).flatten = s := by
  intro fuel
  induction fuel with
  | zero => intro s _; simp [jsSplitPartsF]
  | succ fuel ih =>
    intro s hs
    rw [jsSplitPartsF]
    cases h : s.dropWhile (fun c => !isArabicChar c) with
    | nil =>
      simp only [List.flatten_cons, List.flatten_nil, List.append_nil]
      have := List.takeWhile_append_dropWhile (fun c => !isArabicChar c) s
      rw [h, List.append_nil] at this
      exact this
    | cons c cs =>
      have hc : isArabicChar c = true := by
        have := dropWhile_head_false (fun c => !isArabicChar c) h
        simpa using this
      have hlen1 : (c :: cs).length ≤ s.length := by
        rw [← h]; exact (List.dropWhile_sublist _).length_le
      have hlen2 : ((c :: cs).dropWhile isArabicChar).length ≤ fuel := by
        have h1 : ((c :: cs).dropWhile isArabicChar).length ≤ cs.length := by
          simp [List.dropWhile_cons, hc]
          exact (List.dropWhile_sublist _).length_le
        have h2 : (c :: cs).length = cs.length + 1 := rfl
        omega
      simp only [List.flatten_cons]
      rw [ih _ hlen2]
      rw [List.takeWhile_append_dropWhile]
      have := List.takeWhile_append_dropWhile (fun c => !isArabicChar c) s
      rw [h] at this
      exact this

/-- Every split part is either free of Arabic characters or a nonempty run
of Arabic characters (fuel version). -/
theorem jsSplitPartsF_parts :
    ∀ (fuel : Nat) (s : List Char), s.length ≤ fuel →
      ∀ p ∈ jsSplitPartsF fuel s,
        p.all (fun c => !isArabicChar c) = true ∨
          (p ≠ [] ∧ p.all isArabicChar = true) := by
  intro fuel
  induction fuel with
  | zero =>
    intro s hs p hp
    have : s = [] := by
      cases s with
      | nil => rfl
      | cons a as => simp at hs
    subst this
    simp [jsSplitPartsF] at hp
    subst hp
    left; rfl
  | succ fuel ih =>
    intro s hs p hp
    rw [jsSplitPartsF] at hp
    cases h : s.dropWhile (fun c => !isArabicChar c) with
    | nil =>
      rw [h] at hp
      simp at hp
      subst hp
      left
      exact List.all_takeWhile
    | cons c cs =>
      rw [h] at hp
      have hc : isArabicChar c = true := by
        have := dropWhile_head_false (fun c => !isArabicChar c) h
        simpa using this
      have hlen1 : (c :: cs).length ≤ s.length := by
        rw [← h]; exact (List.dropWhile_sublist _).length_le
      have hlen2 : ((c :: cs).dropWhile isArabicChar).length ≤ fuel := by
        have h1 : ((c :: cs).dropWhile isArabicChar).length ≤ cs.length := by
          simp [List.dropWhile_cons, hc]
          exact (List.dropWhile_sublist _).length_le
        have h2 : (c :: cs).length = cs.length + 1 := rfl
        omega
      simp only [List.mem_cons] at hp
      rcases hp with hp | hp | hp
      · subst hp
        left
        exact List.all_takeWhile
      · subst hp
        right
        constructor
        · simp [List.takeWhile_cons, hc]
        · rw [List.takeWhile_cons, hc]
          simp only [if_true]
          rw [List.all_cons, hc, Bool.true_and]
          exact List.all_takeWhile
      · exact ih _ hlen2 p hp

/-- A text without Arabic characters splits into a single part, itself. -/
theorem jsSplitParts_of_no_arabic {s : List Char}
    (h : s.any isArabicChar = false) : jsSplitParts s = [s] := by
  have hall : s.all (fun c => !isArabicChar c) = true := by
    simp [List.all_eq_true]
    intro x hx
    have := List.any_eq_false.mp h x hx
    simpa using this
  have hdrop : s.dropWhile (fun c => !isArabicChar c) = [] :=
    dropWhile_of_all _ hall
  have htake : s.takeWhile (fun c => !isArabicChar c) = s :=
    takeWhile_of_all _ hall
  cases s with
  | nil => rfl
  | cons a as =>
    show jsSplitPartsF (as.length + 1) (a :: as) = [a :: as]
    rw [jsSplitPartsF, hdrop, htake]

/-- A text with an Arabic character splits into more than one part. -/
theorem jsSplitParts_length_of_arabic {s : List Char}
    (h : s.any isArabicChar = true) : 1 < (jsSplitParts s).length := by
  have hs : s ≠ [] := by
    intro he; subst he; simp at h
  have hdrop : s.dropWhile (fun c => !isArabicChar c) ≠ [] := by
    intro hd
    have hall := List.dropWhile_eq_nil_iff.mp hd
    rcases List.any_eq_true.mp h with ⟨x, hx, hax⟩
    have := hall x hx
    simp [hax] at this
  cases s with
  | nil => exact absurd rfl hs
  | cons a as =>
    show 1 < (jsSplitPartsF (as.length + 1) (a :: as)).length
    rw [jsSplitPartsF]
    cases hd : (a :: as).dropWhile (fun c => !isArabicChar c) with
    | nil => exact absurd hd hdrop
    | cons c cs => simp

/-- Fuel is irrelevant to specMaximalArabicRuns once it covers the length
of the string. -/
theorem specMaximalArabicRuns_fuel_irrel :
    ∀ (fuel1 : Nat) (fuel2 : Nat) (s : List Char),
      s.length ≤ fuel1 → s.length ≤ fuel2 →
      specMaximalArabicRuns fuel1 s = specMaximalArabicRuns fuel2 s := by
  intro fuel1
  induction fuel1 with
  | zero =>
    intro fuel2 s hs1 _
    have : s = [] := by
      cases s with
      | nil => rfl
      | cons a as => simp at hs1
    subst this
    cases fuel2 with
    | zero => rfl
    | succ f2 => rfl
  | succ fuel1 ih =>
    intro fuel2 s hs1 hs2
    cases s with
    | nil =>
      cases fuel2 with
      | zero => rfl
      | succ f2 => rfl
    | cons c cs =>
      cases fuel2 with
      | zero => simp at hs2
      | succ f2 =>
        rw [specMaximalArabicRuns, specMaximalArabicRuns]
        have hlen : (c :: cs).length = cs.length + 1 := rfl
        by_cases hc : isArabicChar c = true
        · have hd : (cs.dropWhile isArabicChar).length ≤ cs.length :=
            (List.dropWhile_sublist _).length_le
          simp only [hc, if_true]
          rw [ih f2 (cs.dropWhile isArabicChar) (by omega) (by omega)]
        · have hc' : isArabicChar c = false := by simpa using hc
          simp only [hc', if_false]
          rw [ih f2 cs (by omega) (by omega)]
          simp

/-- Fuel above the length collapses to the standard instantiation. -/
theorem specMaximalArabicRuns_fuel :
    ∀ (fuel : Nat) (s : List Char), s.length ≤ fuel →
      specMaximalArabicRuns fuel s = specArabicRuns s := by
  intro fuel s h
  exact specMaximalArabicRuns_fuel_irrel fuel s.length s h (Nat.le_refl _)

/-- A string without Arabic characters has no maximal Arabic runs. -/
theorem specArabicRuns_of_no_arabic :
    ∀ {s : List Char}, s.all (fun c => !isArabicChar c) = true →
      specArabicRuns s = [] := by
  intro s
  induction s with
  | nil => intro _; rfl
  | cons c cs ih =>
    intro h
    have hc : isArabicChar c = false := by
      simp [List.all_eq_true] at h
      simpa using h.1
    have hcs : cs.all (fun c => !isArabicChar c) = true := by
      simp [List.all_eq_true] at h ⊢
      exact h.2
    show specMaximalArabicRuns (cs.length + 1) (c :: cs) = []
    rw [specMaximalArabicRuns]
    simp only [hc, if_false]
    rw [specMaximalArabicRuns_fuel cs.length cs (Nat.le_refl _)]
    exact ih hcs

/-- Discarding a non-Arabic prefix does not change the maximal Arabic
runs. -/
theorem specArabicRuns_append_left :
    ∀ (pre t : List Char), pre.all (fun c => !isArabicChar c) = true →
      specArabicRuns (pre ++ t) = specArabicRuns t := by
  intro pre
  induction pre with
  | nil => intro t _; rfl
  | cons c pre ih =>
    intro t h
    have hc : isArabicChar c = false := by
      simp [List.all_eq_true] at h
      simpa using h.1
    have hpre : pre.all (fun c => !isArabicChar c) = true := by
      simp [List.all_eq_true] at h ⊢
      exact h.2
    show specMaximalArabicRuns ((pre ++ t).length + 1) (c :: (pre ++ t))
      = specArabicRuns t
    rw [specMaximalArabicRuns]
    simp only [hc, if_false]
    rw [specMaximalArabicRuns_fuel (pre ++ t).length (pre ++ t) (Nat.le_refl _)]
    exact ih t hpre

/-- Peeling a leading maximal Arabic run: a nonempty all-Arabic prefix
followed by text that does not start with an Arabic character contributes
exactly one run. -/
theorem specArabicRuns_run_cons :
    ∀ (c : Char) (m t : List Char),
      isArabicChar c = true → m.all isArabicChar = true →
      t.takeWhile isArabicChar = [] →
      specArabicRuns ((c :: m) ++ t) = (c :: m) :: specArabicRuns t := by
  intro c m t hc hm ht
  show specMaximalArabicRuns ((m ++ t).length + 1) (c :: (m ++ t))
    = (c :: m) :: specArabicRuns t
  rw [specMaximalArabicRuns]
  simp only [hc, if_true]
  rw [takeWhile_append_all isArabicChar m t hm, ht, List.append_nil]
  rw [dropWhile_append_all isArabicChar m t hm, dropWhile_of_head_false isArabicChar ht]
  rw [specMaximalArabicRuns_fuel (m ++ t).length t
    (by rw [List.length_append]; omega)]

/-- Filtering the split parts down to those containing an Arabic character
yields exactly the maximal Arabic runs of the text (fuel version). -/
theorem jsSplitPartsF_filter_arabic :
    ∀ (fuel : Nat) (s : List Char), s.length ≤ fuel →
      (jsSplitPartsF fuel s).filter (fun p => p.any isArabicChar)
        = specArabicRuns s := by
  intro fuel
  induction fuel with
  | zero =>
    intro s hs
    have : s = [] := by
      cases s with
      | nil => rfl
      | cons a as => simp at hs
    subst this; rfl
  | succ fuel ih =>
    intro s hs
    rw [jsSplitPartsF]
    cases h : s.dropWhile (fun c => !isArabicChar c) with
    | nil =>
      have hall : s.all (fun c => !isArabicChar c) = true := by
        simp [List.all_eq_true]
        exact fun x hx => by simpa using List.dropWhile_eq_nil_iff.mp h x hx
      have hpre : s.takeWhile (fun c => !isArabicChar c) = s :=
        takeWhile_of_all _ hall
      rw [List.filter_cons]
      have : (s.takeWhile (fun c => !isArabicChar c)).any isArabicChar = false := by
        rw [hpre]
        rw [List.any_eq_false]
        intro x hx
        have := List.all_eq_true.mp hall x hx
        simpa using this
      simp only [this]
      rw [specArabicRuns_of_no_arabic hall]
      simp
    | cons c cs =>
      have hc : isArabicChar c = true := by
        have := dropWhile_head_false (fun c => !isArabicChar c) h
        simpa using this
      have hlen1 : (c :: cs).length ≤ s.length := by
        rw [← h]; exact (List.dropWhile_sublist _).length_le
      have hlen2 : ((c :: cs).dropWhile isArabicChar).length ≤ fuel := by
        have h1 : ((c :: cs).dropWhile isArabicChar).length ≤ cs.length := by
          simp [List.dropWhile_cons, hc]
          exact (List.dropWhile_sublist _).length_le
        have h2 : (c :: cs).length = cs.length + 1 := rfl
        omega
      have hpre_any : (s.takeWhile (fun c => !isArabicChar c)).any isArabicChar = false := by
        rw [List.any_eq_false]
        intro x hx
        have := List.mem_takeWhile_imp hx
        simpa using this
      have htw : (c :: cs).takeWhile isArabicChar = c :: cs.takeWhile isArabicChar := by
        simp [List.takeWhile_cons, hc]
      have htw_any : ((c :: cs).takeWhile isArabicChar).any isArabicChar = true := by
        rw [htw]
        simp [hc]
      rw [List.filter_cons, List.filter_cons]
      simp only [hpre_any, htw_any]
      rw [ih _ hlen2]
      have hs_decomp : s = s.takeWhile (fun c => !isArabicChar c) ++ (c :: cs) := by
        conv_lhs => rw [← List.takeWhile_append_dropWhile
          (fun c => !isArabicChar c) s]
        rw [h]
      have hcs_decomp : (c :: cs)
          = (c :: cs.takeWhile isArabicChar) ++ cs.dropWhile isArabicChar := by
        rw [List.cons_append, List.takeWhile_append_dropWhile]
      have hdw : (c :: cs).dropWhile isArabicChar = cs.dropWhile isArabicChar := by
        simp [List.dropWhile_cons, hc]
      rw [hdw]
      conv_rhs => rw [hs_decomp]
      rw [specArabicRuns_append_left _ _ (by exact List.all_takeWhile)]
      conv_rhs => rw [hcs_decomp]
      rw [specArabicRuns_run_cons c (cs.takeWhile isArabicChar)
        (cs.dropWhile isArabicChar) hc List.all_takeWhile
        (takeWhile_dropWhile_nil isArabicChar cs)]
      simp
      exact htw

/-- The pieces built by wrapPiece concatenate their text contents to the
flattened parts. -/
theorem textContentList_map_wrapPiece :
    ∀ (ps : List (List Char)),
      textContentList (ps.map wrapPiece) = ps.flatten := by
  intro ps
  induction ps with
  | nil => rfl
  | cons p ps ih =>
    rw [List.map_cons, List.flatten_cons]
    show textContent (wrapPiece p) ++ textContentList (ps.map wrapPiece)
      = p ++ ps.flatten
    rw [ih]
    by_cases hp : p.any isArabicChar = true
    · simp [wrapPiece, hp, mkCard, textContent, textContentList]
    · have hp' : p.any isArabicChar = false := by simpa using hp
      simp [wrapPiece, hp', textContent]

/-- The card payloads of the pieces built by wrapPiece are exactly the parts
containing an Arabic character. -/
theorem cardPayloads_map_wrapPiece :
    ∀ (ps : List (List Char)),
      cardPayloads (ps.map wrapPiece)
        = ps.filter (fun p => p.any isArabicChar) := by
  intro ps
  induction ps with
  | nil => rfl
  | cons p ps ih =>
    rw [List.map_cons, List.filter_cons]
    show List.filterMap payloadOf (wrapPiece p :: ps.map wrapPiece) = _
    rw [List.filterMap_cons]
    by_cases hp : p.any isArabicChar = true
    · simp only [hp, if_true]
      simp [wrapPiece, hp, mkCard, payloadOf]
      simpa [cardPayloads, List.filterMap_map] using ih
    · have hp' : p.any isArabicChar = false := by simpa using hp
      simp only [hp', if_false]
      simp [wrapPiece, hp', payloadOf]
      simpa [cardPayloads, List.filterMap_map] using ih

/-- Dropping empty parts first does not change which parts contain an Arabic
character. -/
theorem filter_nonempty_filter_arabic :
    ∀ (l : List (List Char)),
      (l.filter (fun p => !p.isEmpty)).filter (fun p => p.any isArabicChar)
        = l.filter (fun p => p.any isArabicChar) := by
  intro l
  induction l with
  | nil => rfl
  | cons p ps ih =>
    cases p with
    | nil => simpa using ih
    | cons c cs =>
      rw [List.filter_cons]
      rw [if_pos (by rfl), List.filter_cons, List.filter_cons]
      by_cases hp : (c :: cs).any isArabicChar = true
      · simp only [hp, if_true]
        rw [ih]
      · have hp' : (c :: cs).any isArabicChar = false := by simpa using hp
        simp only [hp', if_false]
        rw [ih]

/-- The replacement sequence of a text node concatenates back to the
original text. -/
theorem wrapText_textContent (s : List Char) :
    textContentList (wrapText s) = s := by
  rw [wrapText]
  by_cases h : 1 < (jsSplitParts s).length
  · simp only [h, if_true]
    rw [textContentList_map_wrapPiece, flatten_filter_nonempty]
    exact jsSplitPartsF_flatten s.length s (Nat.le_refl _)
  · simp only [h, if_false]
    show textContent (Node.text s) ++ textContentList [] = s
    simp [textContent, textContentList]

/-- The card payloads of the replacement sequence of a text node are exactly
its maximal Arabic runs, in order. -/
theorem wrapText_cardPayloads (s : List Char) :
    cardPayloads (wrapText s) = specArabicRuns s := by
  rw [wrapText]
  by_cases h : 1 < (jsSplitParts s).length
  · simp only [h, if_true]
    rw [cardPayloads_map_wrapPiece, filter_nonempty_filter_arabic]
    exact jsSplitPartsF_filter_arabic s.length s (Nat.le_refl _)
  · simp only [h, if_false]
    have hno : s.any isArabicChar = false := by
      by_cases ha : s.any isArabicChar = true
      · exact absurd (jsSplitParts_length_of_arabic ha) h
      · simpa using ha
    have hall : s.all (fun c => !isArabicChar c) = true := by
      simp [List.all_eq_true]
      intro x hx
      have := List.any_eq_false.mp hno x hx
      simpa using this
    rw [specArabicRuns_of_no_arabic hall]
    rfl

/-- Every node of the replacement sequence of a text node is either a card
carrying a nonempty all-Arabic run or a plain text node free of Arabic
characters. -/
theorem wrapText_mem (s : List Char) :
    ∀ n ∈ wrapText s,
      (∃ p, n = mkCard p ∧ p ≠ [] ∧ p.all isArabicChar = true) ∨
        (∃ u, n = Node.text u ∧ u.all (fun c => !isArabicChar c) = true) := by
  intro n hn
  rw [wrapText] at hn
  by_cases h : 1 < (jsSplitParts s).length
  · simp only [h, if_true] at hn
    rcases List.mem_map.mp hn with ⟨p, hp, hn⟩
    have hp' : p ∈ jsSplitParts s := (List.mem_filter.mp hp).1
    by_cases ha : p.any isArabicChar = true
    · left
      refine ⟨p, ?_, ?_, ?_⟩
      · rw [← hn]; simp [wrapPiece, ha]
      · rcases List.any_eq_true.mp ha with ⟨x, hx, _⟩
        intro he; subst he; simp at hx
      · rcases jsSplitPartsF_parts s.length s (Nat.le_refl _) p hp' with hall | ⟨_, hall⟩
        · exfalso
          rcases List.any_eq_true.mp ha with ⟨x, hx, hax⟩
          have := List.all_eq_true.mp hall x hx
          simp [hax] at this
        · exact hall
    · right
      have ha' : p.any isArabicChar = false := by simpa using ha
      refine ⟨p, ?_, ?_⟩
      · rw [← hn]; simp [wrapPiece, ha']
      · simp [List.all_eq_true]
        intro x hx
        have := List.any_eq_false.mp ha' x hx
        simpa using this
  · simp only [h, if_false] at hn
    right
    have hno : s.any isArabicChar = false := by
      by_cases ha : s.any isArabicChar = true
      · exact absurd (jsSplitParts_length_of_arabic ha) h
      · simpa using ha
    simp at hn
    refine ⟨s, hn, ?_⟩
    simp [List.all_eq_true]
    intro x hx
    have := List.any_eq_false.mp hno x hx
    simpa using this

/-! ### Helper lemmas about the section splitter -/

/-- The decomposition of a list at the position lastNewlineIdx finds: the
prefix, the newline there, and the suffix rebuild the list. -/
theorem lastNewlineIdx_decomp :
    ∀ {w : List Char} {j : Nat}, lastNewlineIdx w = some j →
      w.take j ++ '\n' :: w.drop (j + 1) = w := by
  intro w
  induction w with
  | nil => intro j h; cases h
  | cons c cs ih =>
    intro j h
    rw [lastNewlineIdx] at h
    cases hcs : lastNewlineIdx cs with
    | some j0 =>
      rw [hcs] at h
      injection h with h
      subst h
      show (c :: cs).take (j0 + 1) ++ '\n' :: (c :: cs).drop (j0 + 2) = c :: cs
      rw [List.take_succ_cons, List.drop_succ_cons]
      rw [List.cons_append]
      rw [ih hcs]
    | none =>
      rw [hcs] at h
      by_cases hc : c = '\n'
      · rw [if_pos hc] at h
        injection h with h
        subst h
        simp [hc]
      · rw [if_neg hc] at h
        cases h

/-- The prefix up to lastNewlineIdx is within the list. -/
theorem lastNewlineIdx_lt :
    ∀ {w : List Char} {j : Nat}, lastNewlineIdx w = some j → j < w.length := by
  intro w
  induction w with
  | nil => intro j h; cases h
  | cons c cs ih =>
    intro j h
    rw [lastNewlineIdx] at h
    cases hcs : lastNewlineIdx cs with
    | some j0 =>
      rw [hcs] at h
      injection h with h
      subst h
      have := ih hcs
      simp
      omega
    | none =>
      rw [hcs] at h
      by_cases hc : c = '\n'
      · rw [if_pos hc] at h
        injection h with h
        subst h
        simp
      · rw [if_neg hc] at h
        cases h

/-- The suffix after the matched final newline completes the whitespace
prefix of the tail back to the tail. -/
theorem lastNewlineIdx_take_drop {r3 : List Char} {j : Nat}
    (hlni : lastNewlineIdx (r3.takeWhile isWS) = some j) :
    (r3.takeWhile isWS).take j ++ '\n' :: r3.drop (j + 1) = r3 := by
  have hjlt : j < (r3.takeWhile isWS).length := lastNewlineIdx_lt hlni
  have hdecomp := lastNewlineIdx_decomp hlni
  have hdrop : r3.drop (j + 1)
      = (r3.takeWhile isWS).drop (j + 1) ++ r3.dropWhile isWS := by
    conv_lhs => rw [← List.takeWhile_append_dropWhile isWS r3]
    rw [List.drop_append_of_le_length (by omega)]
  rw [hdrop, ← List.cons_append, ← List.append_assoc, hdecomp]
  exact List.takeWhile_append_dropWhile isWS r3

/-- A successful delimiter match splits the input into the matched delimiter
followed by the remainder. -/
theorem matchDelimAt_append :
    ∀ {s d r : List Char}, matchDelimAt s = some (d, r) → d ++ r = s := by
  intro s d r h
  cases s with
  | nil => cases h
  | cons c0 rest =>
    rw [matchDelimAt] at h
    split at h
    · rename_i hc0
      subst hc0
      split at h
      · rename_i d1 d2 d3 r3 hdw
        split at h
        · rename_i hd
          obtain ⟨h1, h2, h3⟩ := hd
          subst h1; subst h2; subst h3
          split at h
          · rename_i j hlni
            injection h with h
            have hdp : d = '\n' :: (rest.takeWhile isWS ++
                '-' :: '-' :: '-' :: ((r3.takeWhile isWS).take j ++ ['\n'])) := by
              have := congrArg Prod.fst h
              simpa using this.symm
            have hrp : r = r3.drop (j + 1) := by
              have := congrArg Prod.snd h
              simpa using this.symm
            subst hdp; subst hrp
            rw [List.cons_append]
            congr 1
            rw [List.append_assoc]
            conv_rhs =>
              rw [← List.takeWhile_append_dropWhile isWS rest, hdw]
            congr 1
            simp only [List.cons_append, List.append_assoc]
            congr 3
            simpa using lastNewlineIdx_take_drop hlni
          · cases h
        · cases h
      · cases h
    · cases h

/-- A matched delimiter has the shape the specification describes: a
three-hyphen marker surrounded by whitespace and bounded by newlines. -/
theorem matchDelimAt_shape :
    ∀ {s d r : List Char}, matchDelimAt s = some (d, r) → DelimShape d := by
  intro s d r h
  cases s with
  | nil => cases h
  | cons c0 rest =>
    rw [matchDelimAt] at h
    split at h
    · rename_i hc0
      subst hc0
      split at h
      · rename_i d1 d2 d3 r3 hdw
        split at h
        · rename_i hd
          obtain ⟨h1, h2, h3⟩ := hd
          subst h1; subst h2; subst h3
          split at h
          · rename_i j hlni
            injection h with h
            have hdp : d = '\n' :: (rest.takeWhile isWS ++
                '-' :: '-' :: '-' :: ((r3.takeWhile isWS).take j ++ ['\n'])) := by
              have := congrArg Prod.fst h
              simpa using this.symm
            refine ⟨rest.takeWhile isWS, (r3.takeWhile isWS).take j,
              List.all_takeWhile, ?_, hdp⟩
            rw [List.all_eq_true]
            intro x hx
            have hx' : x ∈ r3.takeWhile isWS := by
              have : (r3.takeWhile isWS).take j
                  ++ (r3.takeWhile isWS).drop j = r3.takeWhile isWS :=
                List.take_append_drop j (r3.takeWhile isWS)
              rw [← this]
              exact List.mem_append_left _ hx
            exact List.mem_takeWhile_imp hx'
          · cases h
        · cases h
      · cases h
    · cases h

/-- A delimiter of the specified shape is nonempty. -/
theorem DelimShape.ne_nil {d : List Char} (h : DelimShape d) : d ≠ [] := by
  rcases h with ⟨w1, w2, _, _, hd⟩
  subst hd
  intro hx
  cases hx

/-- The remainder after a delimiter match is strictly shorter. -/
theorem matchDelimAt_rem_lt :
    ∀ {s d r : List Char}, matchDelimAt s = some (d, r) → r.length < s.length := by
  intro s d r h
  have happ := matchDelimAt_append h
  have hne : d ≠ [] := (matchDelimAt_shape h).ne_nil
  have : d.length + r.length = s.length := by
    rw [← happ, List.length_append]
  have : 0 < d.length := List.length_pos.mpr hne
  omega

/-- The scanner reassembles to the original text: interleaving the segments
with the removed delimiters gives back the input (fuel version). -/
theorem splitMdAuxF_interleave :
    ∀ (fuel : Nat) (acc s : List Char), s.length ≤ fuel →
      interleave (splitMdAuxF fuel acc s).1 (splitMdAuxF fuel acc s).2
        = acc.reverse ++ s := by
  intro fuel
  induction fuel with
  | zero =>
    intro acc s hs
    have : s = [] := by
      cases s with
      | nil => rfl
      | cons a as => simp at hs
    subst this
    simp [splitMdAuxF, interleave]
  | succ fuel ih =>
    intro acc s hs
    cases s with
    | nil => simp [splitMdAuxF, interleave]
    | cons c rest =>
      rw [splitMdAuxF]
      cases hm : matchDelimAt (c :: rest) with
      | some dr =>
        obtain ⟨d, r⟩ := dr
        have hlt : r.length < (c :: rest).length := matchDelimAt_rem_lt hm
        have hr : r.length ≤ fuel := by
          have : (c :: rest).length = rest.length + 1 := rfl
          omega
        simp only [interleave]
        rw [ih [] r hr]
        simp only [List.reverse_nil, List.nil_append]
        rw [List.append_assoc]
        rw [matchDelimAt_append hm]
      | none =>
        have : rest.length ≤ fuel := by
          have : (c :: rest).length = rest.length + 1 := rfl
          omega
        rw [ih (c :: acc) rest this]
        simp

/-- Every delimiter the scanner removes has the specified shape (fuel
version). -/
theorem splitMdAuxF_shape :
    ∀ (fuel : Nat) (acc s : List Char), s.length ≤ fuel →
      ∀ d ∈ (splitMdAuxF fuel acc s).2, DelimShape d := by
  intro fuel
  induction fuel with
  | zero =>
    intro acc s hs d hd
    have : s = [] := by
      cases s with
      | nil => rfl
      | cons a as => simp at hs
    subst this
    simp [splitMdAuxF] at hd
  | succ fuel ih =>
    intro acc s hs d hd
    cases s with
    | nil => simp [splitMdAuxF] at hd
    | cons c rest =>
      rw [splitMdAuxF] at hd
      cases hm : matchDelimAt (c :: rest) with
      | some dr =>
        obtain ⟨d0, r⟩ := dr
        rw [hm] at hd
        have hlt : r.length < (c :: rest).length := matchDelimAt_rem_lt hm
        have hr : r.length ≤ fuel := by
          have : (c :: rest).length = rest.length + 1 := rfl
          omega
        simp only [List.mem_cons] at hd
        rcases hd with hd | hd
        · subst hd
          exact matchDelimAt_shape hm
        · exact ih [] r hr d hd
      | none =>
        rw [hm] at hd
        have : rest.length ≤ fuel := by
          have : (c :: rest).length = rest.length + 1 := rfl
          omega
        exact ih (c :: acc) rest this d hd

/-- The filterMap of loadMarkdown keeps exactly the sections with nonempty
trim. -/
theorem loadMarkdownCards_filter :
    ∀ (md : List Char),
      loadMarkdownCards md
        = (splitMd md).filter (fun sec => !(trimWS sec).isEmpty) := by
  intro md
  rw [loadMarkdownCards]
  generalize splitMd md = l
  induction l with
  | nil => rfl
  | cons sec secs ih =>
    by_cases hsec : (trimWS sec).isEmpty = true
    · have htr : trimWS sec = [] := List.isEmpty_iff.mp hsec
      simpa [List.filterMap_cons, List.filter_cons, htr, hsec] using ih
    · have hsec' : (trimWS sec).isEmpty = false := by simpa using hsec
      have htr : ¬(trimWS sec = []) := by
        intro hx
        rw [hx] at hsec'
        simp at hsec'
      simpa [List.filterMap_cons, List.filter_cons, htr, hsec'] using ih

/-! ### Remaining small helpers -/

/-- A text node without Arabic characters is left as it is by wrapText. -/
theorem wrapText_no_arabic {s : List Char}
    (h : s.any isArabicChar = false) : wrapText s = [Node.text s] := by
  rw [wrapText, jsSplitParts_of_no_arabic h]
  simp

/-- The peel decomposition: the kept prefix followed by the trailing movable
run is the original child list. -/
theorem leadingRest_append_trailingRun (ns : List Node) :
    leadingRest ns ++ trailingRun ns = ns := by
  rw [leadingRest, trailingRun, ← List.reverse_append,
    List.takeWhile_append_dropWhile, List.reverse_reverse]

/-- Every node of the trailing run is movable: a card or a whitespace-only
text node. -/
theorem trailingRun_movable (ns : List Node) :
    ∀ n ∈ trailingRun ns, isMovableNode n = true := by
  intro n hn
  rw [trailingRun, List.mem_reverse] at hn
  exact List.mem_takeWhile_imp hn

/-- A text with a Latin letter has an other-script character. -/
theorem any_latin_any_other {t : List Char}
    (h : t.any isLatinChar = true) : t.any isOtherScriptChar = true := by
  rcases List.any_eq_true.mp h with ⟨x, hx, hlx⟩
  exact List.any_eq_true.mpr ⟨x, hx, by simp [isOtherScriptChar, hlx]⟩

/-- joinWithPlus agrees with interspersing the separator between the
individual characters. -/
theorem joinWithPlus_intersperse :
    ∀ (l : List Char),
      joinWithPlus l
        = ((l.map (fun c => [c])).intersperse ((" + ").toList)).flatten := by
  intro l
  induction l with
  | nil => rfl
  | cons c rest ih =>
    cases rest with
    | nil => rfl
    | cons c2 t =>
      show c :: ' ' :: '+' :: ' ' :: joinWithPlus (c2 :: t)
        = (((c :: c2 :: t).map (fun c => [c])).intersperse ((" + ").toList)).flatten
      rw [List.map_cons, List.map_cons, List.intersperse_cons_cons,
        List.flatten_cons, List.flatten_cons, ih, List.map_cons]
      have hsep : (" + ").toList = [' ', '+', ' '] := rfl
      rw [hsep]
      simp

/-- Every record of the letter table has a positive articulation index. -/
theorem letterData_makhraj_pos :
    ∀ (c : Char) (i : LetterInfo), letterData c = some i → i.makhraj ≠ 0 := by
  intro c i h
  rw [letterData] at h
  cases hf : letterTable.find? (fun e => e.1 == c) with
  | none => rw [hf] at h; cases h
  | some e =>
    rw [hf] at h
    injection h with h
    subst h
    have hmem : e ∈ letterTable := List.mem_of_find?_eq_some hf
    have : ∀ x ∈ letterTable, x.2.makhraj ≠ 0 := by decide
    exact this e hmem

/-! ### Claim theorems -/

/-- Claim C1: for every text node processed by the segmentation step,
concatenating the text content of the replacement sequence wrapArabicLetters
produces for it (cards for Arabic pieces, plain text nodes for the others,
zero-length pieces discarded) gives back the original text, character for
character. -/
theorem C1_segmentation_preserves_text (s : List Char) :
    textContentList (wrapText s) = s :=
  wrapText_textContent s

/-- Claim C2: segmentation turns each maximal Arabic run of a text node into
exactly one interactive card whose label and click payload are that run (the
payload sequence of the replacement equals the sequence of maximal Arabic
runs, in order); every card in the replacement is a card of a nonempty
all-Arabic run carrying equal label and payload; every other node is plain
text without Arabic characters; and a code element is left untouched by the
walk, so its text is never segmented. -/
theorem C2_runs_become_single_cards :
    (∀ s : List Char, cardPayloads (wrapText s) = specArabicRuns s) ∧
    (∀ (s : List Char), ∀ n ∈ wrapText s,
      (∃ p, n = mkCard p ∧ p ≠ [] ∧ p.all isArabicChar = true) ∨
        (∃ u, n = Node.text u ∧ u.all (fun c => !isArabicChar c) = true)) ∧
    (∀ (tag : String) (cls : List String) (pl : Option (List Char))
        (da ds ta : String) (ch rest : List Node),
      lowerString tag = ("code") →
      wrapChildren (Node.elem tag cls pl da ds ta ch :: rest)
        = Node.elem tag cls pl da ds ta ch :: wrapChildren rest) := by
  refine ⟨wrapText_cardPayloads, wrapText_mem, ?_⟩
  intro tag cls pl da ds ta ch rest hcode
  rw [wrapChildren]
  rw [if_pos hcode]
  simp

/-- Claim C2 witness: on the text of the spec example, the replacement holds
one card for the run, and an actual code element is passed through
unchanged. -/
theorem C2_runs_become_single_cards_witness :
    cardPayloads (wrapText (("Read: قل").toList))
        = specArabicRuns (("Read: قل").toList) ∧
    ((∃ p, mkCard (("قل").toList) = mkCard p ∧ p ≠ []
          ∧ p.all isArabicChar = true) ∨
        (∃ u, mkCard (("قل").toList) = Node.text u
          ∧ u.all (fun c => !isArabicChar c) = true)) ∧
    wrapChildren [Node.elem ("code") [] none ("") ("") ("")
        [Node.text (("قل").toList)]]
      = [Node.elem ("code") [] none ("") ("") ("") [Node.text (("قل").toList)]] := by
  refine ⟨C2_runs_become_single_cards.1 _, ?_, ?_⟩
  · apply C2_runs_become_single_cards.2.1 (("Read: قل").toList)
    rw [show wrapText (("Read: قل").toList)
        = [Node.text (("Read: ").toList), mkCard (("قل").toList)] from rfl]
    exact List.mem_cons_of_mem _ (List.mem_cons_self _ _)
  · rw [C2_runs_become_single_cards.2.2 ("code") [] none ("") ("") ("")
      [Node.text (("قل").toList)] [] (by rfl)]
    simp [wrapChildren]

/-- Claim C10: a text node without any Arabic character is left in place by
the segmentation step, with no new siblings around it, and element nodes are
never altered by the walk: an element child is mapped to exactly one element
with the same tag, classes, payload and attributes, its children recursed
into unless the element is a code element. -/
theorem C10_frame_non_arabic_untouched :
    (∀ s : List Char, s.any isArabicChar = false → wrapText s = [Node.text s]) ∧
    (∀ (tag : String) (cls : List String) (pl : Option (List Char))
        (da ds ta : String) (ch rest : List Node),
      wrapChildren (Node.elem tag cls pl da ds ta ch :: rest)
        = (if lowerString tag = ("code") then Node.elem tag cls pl da ds ta ch
           else Node.elem tag cls pl da ds ta (wrapChildren ch))
          :: wrapChildren rest) := by
  constructor
  · intro s h
    exact wrapText_no_arabic h
  · intro tag cls pl da ds ta ch rest
    rw [wrapChildren]
    by_cases hcode : lowerString tag = ("code")
    · rw [if_pos hcode, if_pos hcode]
      simp
    · rw [if_neg hcode, if_neg hcode]
      simp

/-- Claim C10 witness: a concrete Arabic-free text node is preserved, and a
concrete div element keeps its identity while its child is processed. -/
theorem C10_frame_non_arabic_untouched_witness :
    wrapText (("abc").toList) = [Node.text (("abc").toList)] ∧
    wrapChildren [Node.elem ("div") ["x"] none ("") ("") ("")
        [Node.text (("abc").toList)]]
      = [Node.elem ("div") ["x"] none ("") ("") ("")
          (wrapChildren [Node.text (("abc").toList)])] :=
  ⟨C10_frame_non_arabic_untouched.1 _ (by rfl),
   by
    rw [C10_frame_non_arabic_untouched.2 ("div") ["x"] none ("") ("") ("")
      [Node.text (("abc").toList)] []]
    rw [if_neg (by decide)]
    simp [wrapChildren]⟩

/-- Claim C3: loadMarkdown splits the chapter text on the section-delimiter
pattern — every removed delimiter is a three-hyphen marker surrounded by
optional whitespace and bounded by newlines, and the segments interleaved with
the delimiters rebuild the raw text — and renders exactly one card per
segment with nonempty trim, in segment order, with no card for a segment that
trims to the empty string (so leading or trailing delimiters produce no blank
card). -/
theorem C3_split_and_cards :
    (∀ md : List Char, interleave (splitMd md) (splitMdDelims md) = md) ∧
    (∀ md : List Char, ∀ d ∈ splitMdDelims md, DelimShape d) ∧
    (∀ md : List Char,
      loadMarkdownCards md
        = (splitMd md).filter (fun sec => !(trimWS sec).isEmpty)) := by
  refine ⟨?_, ?_, loadMarkdownCards_filter⟩
  · intro md
    have := splitMdAuxF_interleave md.length [] md (Nat.le_refl _)
    simpa [splitMd, splitMdDelims] using this
  · intro md d hd
    exact splitMdAuxF_shape md.length [] md (Nat.le_refl _) d hd

/-- Claim C3 witness: on a text with a leading and a trailing delimiter, the
interleaving rebuilds the text, the one delimiter checked is of the right
shape, and the cards are exactly the two nonempty-trim segments. -/
theorem C3_split_and_cards_witness :
    interleave (splitMd (("\n---\na\n---\nب\n---\n").toList))
        (splitMdDelims (("\n---\na\n---\nب\n---\n").toList))
      = ("\n---\na\n---\nب\n---\n").toList ∧
    DelimShape (("\n---\n").toList) ∧
    loadMarkdownCards (("\n---\na\n---\nب\n---\n").toList)
      = (splitMd (("\n---\na\n---\nب\n---\n").toList)).filter
          (fun sec => !(trimWS sec).isEmpty) := by
  refine ⟨C3_split_and_cards.1 _, ?_, C3_split_and_cards.2.2 _⟩
  apply C3_split_and_cards.2.1 (("\n---\na\n---\nب\n---\n").toList)
  rw [show splitMdDelims (("\n---\na\n---\nب\n---\n").toList)
      = [("\n---\n").toList, ("\n---\n").toList, ("\n---\n").toList] from rfl]
  exact List.mem_cons_self _ _

/-- Claim C4: a p, li or blockquote block whose text has an Arabic character
and no Latin, Cyrillic or Bengali character gets direction rtl and is
centered, or right-aligned when the text has a hyphen; a block whose text has
both Arabic and Latin characters keeps its direction and alignment (only its
descendants are processed). -/
theorem C4_rtl_direction_rule :
    (∀ (tag : String) (cls : List String) (pl : Option (List Char))
        (da ds ta : String) (ch : List Node),
      (tag = "p" ∨ tag = "li" ∨ tag = "blockquote") →
      (textContentList ch).any isArabicChar = true →
      (textContentList ch).any isOtherScriptChar = false →
      setRtlNode (Node.elem tag cls pl da ds ta ch)
        = Node.elem tag cls pl da ("rtl")
            (if (textContentList ch).contains ('-') then "right" else "center")
            (setRtlList ch)) ∧
    (∀ (tag : String) (cls : List String) (pl : Option (List Char))
        (da ds ta : String) (ch : List Node),
      (textContentList ch).any isArabicChar = true →
      (textContentList ch).any isLatinChar = true →
      setRtlNode (Node.elem tag cls pl da ds ta ch)
        = Node.elem tag cls pl da ds ta (setRtlList ch)) := by
  constructor
  · intro tag cls pl da ds ta ch htag har hno
    rw [setRtlNode]
    rw [if_pos ?hc]
    case hc =>
      rw [rtlCond, har, hno]
      rcases htag with h | h | h <;> rw [h] <;> rfl
  · intro tag cls pl da ds ta ch har hlat
    rw [setRtlNode]
    rw [if_neg ?hc]
    case hc =>
      rw [rtlCond, any_latin_any_other hlat]
      simp

/-- Claim C4 witness: a concrete all-Arabic paragraph is set rtl and
centered, and a concrete Arabic-plus-Latin paragraph keeps its styles. -/
theorem C4_rtl_direction_rule_witness :
    setRtlNode (Node.elem ("p") [] none ("") ("") ("")
        [Node.text (("قل هو").toList)])
      = Node.elem ("p") [] none ("") ("rtl") ("center")
          (setRtlList [Node.text (("قل هو").toList)]) ∧
    setRtlNode (Node.elem ("p") [] none ("") ("") ("")
        [Node.text (("قل ok").toList)])
      = Node.elem ("p") [] none ("") ("") ("")
          (setRtlList [Node.text (("قل ok").toList)]) := by
  constructor
  · have := C4_rtl_direction_rule.1 ("p") [] none ("") ("") ("")
      [Node.text (("قل هو").toList)] (Or.inl rfl) (by decide) (by decide)
    rw [this]
    rw [show textContentList [Node.text (("قل هو").toList)]
        = ("قل هو").toList from by simp [textContentList, textContent]]
    rw [if_neg (by decide)]
  · exact C4_rtl_direction_rule.2 ("p") [] none ("") ("") ("")
      [Node.text (("قل ok").toList)] (by decide) (by decide)

/-- Claim C5 counterexample: a p block holding an Arabic card followed by a
nonempty Bengali text node. It contains an interactive card, Bengali text,
and its last element child (the DOM lastElementChild the source checks) is an
Arabic card — every condition of the claim — yet the mixed-line step leaves
it unchanged and does not mark it mixed-language-line, because the peel loop
stops at once on the trailing non-whitespace text node. -/
theorem C5_counterexample :
    mixedCond [mkCard (("ب").toList), Node.text (("ব").toList)] = true ∧
    (match lastElemChild [mkCard (("ب").toList), Node.text (("ব").toList)] with
     | some n => isCardNode n
     | none => false) = true ∧
    styleMixedElem (Node.elem ("p") [] none ("") ("") ("")
        [mkCard (("ب").toList), Node.text (("ব").toList)])
      = Node.elem ("p") [] none ("") ("") ("")
          [mkCard (("ب").toList), Node.text (("ব").toList)] ∧
    ¬(("mixed-language-line" : String) ∈ elemClasses
        (styleMixedElem (Node.elem ("p") [] none ("") ("") ("")
          [mkCard (("ب").toList), Node.text (("ব").toList)]))) := by
  refine ⟨by decide, by decide, rfl, ?_⟩
  rw [show styleMixedElem (Node.elem ("p") [] none ("") ("") ("")
      [mkCard (("ب").toList), Node.text (("ব").toList)])
    = Node.elem ("p") [] none ("") ("") ("")
        [mkCard (("ب").toList), Node.text (("ব").toList)] from rfl]
  decide

/-- Claim C5 as amended: the restructuring additionally requires the peeled
trailing run (cards and whitespace-only text nodes at the end of the child
list) to be nonempty — equivalently, the last child node must itself be a
card or whitespace-only text. Under the full conditions the block is rebuilt
as a left bengali-text wrapper holding the remaining children and a right
rtl arabic-group wrapper holding the trailing run, in original relative
order, and is marked mixed-language-line; a block failing any condition is
left unchanged. -/
theorem C5_mixed_line_restructuring :
    (∀ (tag : String) (cls : List String) (pl : Option (List Char))
        (da ds ta : String) (ch : List Node),
      (tag = "p" ∨ tag = "li") →
      mixedCond ch = true →
      trailingRun ch ≠ [] →
      styleMixedElem (Node.elem tag cls pl da ds ta ch)
        = Node.elem tag (cls ++ ["mixed-language-line"]) pl da ds ta
            [Node.elem ("span") ["bengali-text"] none ("") ("") ("")
               (leadingRest ch),
             Node.elem ("span") ["arabic-group"] none ("rtl") ("") ("")
               (trailingRun ch)] ∧
        leadingRest ch ++ trailingRun ch = ch ∧
        (∀ n ∈ trailingRun ch, isMovableNode n = true)) ∧
    (∀ (tag : String) (cls : List String) (pl : Option (List Char))
        (da ds ta : String) (ch : List Node),
      ((tag ≠ "p" ∧ tag ≠ "li") ∨ mixedCond ch = false ∨ trailingRun ch = []) →
      styleMixedElem (Node.elem tag cls pl da ds ta ch)
        = Node.elem tag cls pl da ds ta ch) := by
  constructor
  · intro tag cls pl da ds ta ch htag hcond hrun
    refine ⟨?_, leadingRest_append_trailingRun ch, trailingRun_movable ch⟩
    rw [styleMixedElem]
    rw [if_pos ?hc]
    case hc =>
      rw [hcond]
      rcases htag with h | h <;> rw [h] <;> rfl
    rw [if_neg ?hr]
    case hr =>
      intro hx
      exact hrun (List.isEmpty_iff.mp hx)
  · intro tag cls pl da ds ta ch hfail
    rw [styleMixedElem]
    rcases hfail with ⟨hp, hli⟩ | hcond | hrun
    · rw [if_neg ?hc]
      case hc =>
        intro hx
        simp only [Bool.and_eq_true, Bool.or_eq_true, beq_iff_eq] at hx
        rcases hx with ⟨h | h, _⟩
        · exact hp h
        · exact hli h
    · rw [hcond]
      rw [if_neg (by simp)]
    · by_cases hcond : ((tag == "p" || tag == "li") && mixedCond ch) = true
      · rw [if_pos hcond]
        rw [if_pos (by rw [hrun]; rfl)]
      · rw [if_neg hcond]

/-- Claim C5 witness for the amended statement: a block ending in a card is
restructured into the two wrappers, and the counterexample block (empty
trailing run) is left unchanged. -/
theorem C5_mixed_line_restructuring_witness :
    (styleMixedElem (Node.elem ("p") [] none ("") ("") ("")
        [Node.text (("ব ").toList), mkCard (("ب").toList)])
      = Node.elem ("p") ["mixed-language-line"] none ("") ("") ("")
          [Node.elem ("span") ["bengali-text"] none ("") ("") ("")
             (leadingRest [Node.text (("ব ").toList), mkCard (("ب").toList)]),
           Node.elem ("span") ["arabic-group"] none ("rtl") ("") ("")
             (trailingRun [Node.text (("ব ").toList), mkCard (("ب").toList)])]) ∧
    styleMixedElem (Node.elem ("div") [] none ("") ("") ("")
        [mkCard (("ب").toList)])
      = Node.elem ("div") [] none ("") ("") ("") [mkCard (("ب").toList)] := by
  constructor
  · have := (C5_mixed_line_restructuring.1 ("p") [] none ("") ("") ("")
      [Node.text (("ব ").toList), mkCard (("ب").toList)]
      (Or.inl rfl) (by decide)
      (by
        intro hx
        rw [show trailingRun [Node.text (("ব ").toList), mkCard (("ب").toList)]
            = [mkCard (("ب").toList)] from rfl] at hx
        exact List.noConfusion hx)).1
    simpa using this
  · exact C5_mixed_line_restructuring.2 ("div") [] none ("") ("") ("")
      [mkCard (("ب").toList)] (Or.inl ⟨by decide, by decide⟩)

/-- Claim C6: for a payload longer than one character, the overlay body is
the individual characters joined by the plus separator, followed by the
equals sign and the original run. -/
theorem C6_multi_letter_composition (l : List Char) (h : 1 < l.length) :
    openLetterModal l
      = ModalView.multi
          (((l.map (fun c => [c])).intersperse ((" + ").toList)).flatten
            ++ (" = ").toList ++ l) := by
  rw [openLetterModal.eq_def, if_pos h, joinWithPlus_intersperse]

/-- Claim C6 witness: the payload of the spec example renders the expected
composition line. -/
theorem C6_multi_letter_composition_witness :
    openLetterModal (("بت").toList)
      = ModalView.multi (("ب + ت = بت").toList) :=
  (C6_multi_letter_composition (("بت").toList) (by decide)).trans
    (congrArg ModalView.multi (by decide))

/-- Claim C7: a single-letter payload with a metadata record renders the
three-script name block and the Bengali-numeral articulation index alongside
the combination and positional blocks; a single-letter payload without a
record renders the same remaining blocks with the name and index blocks
absent, and the rendering is total — no error. -/
theorem C7_single_letter_blocks :
    (∀ (c : Char) (i : LetterInfo), letterData c = some i →
      openLetterModal [c]
        = ModalView.single (some i.name) c
            [[c, 'ا'], [c, 'و'], [c, 'ي']] [c, c, c]
            (some (toBengaliNumerals i.makhraj))) ∧
    (∀ c : Char, letterData c = none →
      openLetterModal [c]
        = ModalView.single none c
            [[c, 'ا'], [c, 'و'], [c, 'ي']] [c, c, c] none) := by
  constructor
  · intro c i h
    rw [openLetterModal.eq_def]
    rw [if_neg (by simp)]
    simp only [h]
    rw [if_neg ?hm]
    case hm =>
      intro hx
      exact letterData_makhraj_pos c i h (by simpa using hx)
  · intro c h
    rw [openLetterModal.eq_def]
    rw [if_neg (by simp)]
    simp only [h]

/-- Claim C7 witness: the letter ba has a record and renders its names with
the index fifteen in Bengali numerals; the tatweel character has no record
and renders with the name and index blocks absent. -/
theorem C7_single_letter_blocks_witness :
    openLetterModal [('ب')]
      = ModalView.single
          (some ⟨("বা").toList, ("Ba").toList, ("باء").toList⟩) ('ب')
          [['ب', 'ا'], ['ب', 'و'], ['ب', 'ي']] ['ب', 'ب', 'ب']
          (some (("১৫").toList)) ∧
    openLetterModal [('ـ')]
      = ModalView.single none ('ـ')
          [['ـ', 'ا'], ['ـ', 'و'], ['ـ', 'ي']] ['ـ', 'ـ', 'ـ'] none := by
  constructor
  · have := C7_single_letter_blocks.1 ('ب')
      ⟨15, ⟨("বা").toList, ("Ba").toList, ("باء").toList⟩⟩ (by rfl)
    rw [this]
    rw [show toBengaliNumerals 15 = ("১৫").toList from rfl]
  · exact C7_single_letter_blocks.2 ('ـ') (by rfl)

/-- Claim C8: every failed chapter fetch — transport error or non-success
status — leaves the single error message naming the file in place of the
content, resolves the promise rather than rejecting, logs the error once and
issues exactly one fetch, with no retry. -/
theorem C8_chapter_fetch_failure (filename : List Char) (r : FetchResult)
    (h : isFailedFetch r = true) :
    loadMarkdownRun filename r
      = ⟨ContentState.errorMessage (("<em>Failed to load file: ").toList
            ++ filename ++ (".</em>").toList), true, 1, 1⟩ := by
  cases r with
  | success st body =>
    rw [loadMarkdownRun]
    rw [isFailedFetch] at h
    rw [if_neg ?hs]
    case hs =>
      intro hx
      rw [hx] at h
      simp at h
    rfl
  | failure => rfl

/-- Claim C8 witness: a 404 response for a concrete file resolves with the
error message, one log entry and one fetch. -/
theorem C8_chapter_fetch_failure_witness :
    isFailedFetch (FetchResult.success 404 []) = true ∧
    loadMarkdownRun (("01.md").toList) (FetchResult.success 404 [])
      = ⟨ContentState.errorMessage (("<em>Failed to load file: ").toList
            ++ ("01.md").toList ++ (".</em>").toList), true, 1, 1⟩ :=
  ⟨by decide, C8_chapter_fetch_failure (("01.md").toList)
    (FetchResult.success 404 []) (by decide)⟩

/-- A non-null, non-undefined element never throws on a property read, and
the read yields memberOrUndef. -/
theorem getMember_of_not_null {e : JsValue} (name : List Char)
    (hnull : e ≠ JsValue.null) (hundef : e ≠ JsValue.undef) :
    getMember e name = some (memberOrUndef e name) := by
  cases e with
  | undef => exact absurd rfl hundef
  | null => exact absurd rfl hnull
  | bool b => rfl
  | num n => rfl
  | str s => rfl
  | arr elems => rfl
  | obj fields => rfl

/-- Over elements that are neither null nor undefined, the item builder
appends one item per element, in order, with no error. -/
theorem buildNavItems_no_throw :
    ∀ (elems : List JsValue) (acc : List NavItem),
      (∀ e ∈ elems, e ≠ JsValue.null ∧ e ≠ JsValue.undef) →
      buildNavItems elems acc
        = ⟨NavState.chapterItems (acc.reverse ++ elems.map (fun e =>
              ⟨memberOrUndef e (("title").toList),
               memberOrUndef e (("file").toList)⟩)), none, 0⟩ := by
  intro elems
  induction elems with
  | nil => intro acc _; simp [buildNavItems]
  | cons e rest ih =>
    intro acc h
    have he := h e (List.mem_cons_self _ _)
    have hrest : ∀ x ∈ rest, x ≠ JsValue.null ∧ x ≠ JsValue.undef :=
      fun x hx => h x (List.mem_cons_of_mem _ hx)
    rw [buildNavItems]
    rw [getMember_of_not_null (("title").toList) he.1 he.2]
    rw [getMember_of_not_null (("file").toList) he.1 he.2]
    simp [ih _ hrest]

/-- Claim C9 counterexample: the body with a truthy non-array chapters value
is a successful fetch whose result is malformed, yet the handler does not
produce the no-chapters state — chapters.length compares unequal to zero and
chapters.forEach throws, so the catch branch leaves the load-error message
in the content area instead. -/
theorem C9_counterexample :
    handleManifest (ManifestResult.success
        (JsValue.obj [((("chapters").toList), JsValue.obj [])]))
      = ⟨NavState.untouched, some manifestErrMsg, 1⟩ ∧
    handleManifest (ManifestResult.success
        (JsValue.obj [((("chapters").toList), JsValue.obj [])]))
      ≠ ⟨NavState.noChaptersMsg, none, 0⟩ := by
  refine ⟨rfl, ?_⟩
  intro h
  rw [show handleManifest (ManifestResult.success
      (JsValue.obj [((("chapters").toList), JsValue.obj [])]))
    = ⟨NavState.untouched, some manifestErrMsg, 1⟩ from rfl] at h
  simp at h

/-- Claim C9 as amended: on a successful fetch, a falsy chapters value
(absent field, null, or any non-object body) and likewise a chapters value
whose length compares strictly equal to zero (an empty array in particular)
produce the empty chapter sequence and the no-chapters state, with the
content area untouched and nothing logged; a network or parse failure, a
null body (reading chapters throws), and a truthy non-array chapters value
of nonzero length (forEach throws) each leave only the load-error message in
the content area, with the navigation untouched and one log entry; a
nonempty chapters array of non-null elements builds one item per element in
order, non-record elements yielding undefined title and file values. -/
theorem C9_manifest_outcomes :
    (∀ (body f : JsValue),
      getMember body (("chapters").toList) = some f → truthy f = false →
      handleManifest (ManifestResult.success body)
        = ⟨NavState.noChaptersMsg, none, 0⟩) ∧
    (∀ (body f : JsValue),
      getMember body (("chapters").toList) = some f → truthy f = true →
      getMember f (("length").toList) = some (JsValue.num 0) →
      handleManifest (ManifestResult.success body)
        = ⟨NavState.noChaptersMsg, none, 0⟩) ∧
    (handleManifest ManifestResult.failure
      = ⟨NavState.untouched, some manifestErrMsg, 1⟩) ∧
    (∀ body : JsValue,
      getMember body (("chapters").toList) = none →
      handleManifest (ManifestResult.success body)
        = ⟨NavState.untouched, some manifestErrMsg, 1⟩) ∧
    (∀ (body f : JsValue),
      getMember body (("chapters").toList) = some f → truthy f = true →
      strictEqZero (getMember f (("length").toList)) = false →
      (∀ elems : List JsValue, f ≠ JsValue.arr elems) →
      handleManifest (ManifestResult.success body)
        = ⟨NavState.untouched, some manifestErrMsg, 1⟩) ∧
    (∀ (body : JsValue) (elems : List JsValue),
      getMember body (("chapters").toList) = some (JsValue.arr elems) →
      elems ≠ [] →
      (∀ e ∈ elems, e ≠ JsValue.null ∧ e ≠ JsValue.undef) →
      handleManifest (ManifestResult.success body)
        = ⟨NavState.chapterItems (elems.map (fun e =>
              ⟨memberOrUndef e (("title").toList),
               memberOrUndef e (("file").toList)⟩)), none, 0⟩) := by
  refine ⟨?_, ?_, rfl, ?_, ?_, ?_⟩
  · intro body f hf htr
    rw [handleManifest, runManifestThen.eq_def]
    simp only [hf, htr]
    rfl
  · intro body f hf htr hlen
    rw [handleManifest, runManifestThen.eq_def]
    simp only [hf, htr, if_true, hlen]
    rfl
  · intro body hf
    rw [handleManifest, runManifestThen.eq_def]
    simp only [hf]
  · intro body f hf htr hlen hnotarr
    rw [handleManifest, runManifestThen.eq_def]
    simp only [hf, htr, if_true, hlen]
    cases f with
    | undef => simp [truthy] at htr
    | null => simp [truthy] at htr
    | bool b => rfl
    | num n => rfl
    | str s => rfl
    | arr elems => exact absurd rfl (hnotarr elems)
    | obj fields => rfl
  · intro body elems hf hne helems
    rw [handleManifest, runManifestThen.eq_def]
    simp only [hf]
    have htr : truthy (JsValue.arr elems) = true := rfl
    simp only [htr, if_true]
    have hlen : strictEqZero (getMember (JsValue.arr elems) (("length").toList))
        = false := by
      have h0 : (elems.length : Int) ≠ 0 := by
        have h1 : elems.length ≠ 0 := fun hx => hne (List.length_eq_zero.mp hx)
        exact_mod_cast h1
      simp [getMember, strictEqZero, h0]
    rw [if_neg (by rw [hlen]; exact Bool.false_ne_true)]
    rw [buildNavItems_no_throw elems [] helems]
    simp

/-- Claim C9 witness for the amended statement: an object without a chapters
field and one with an empty chapters array yield the no-chapters state; a
null body yields the load-error outcome; a manifest with one proper record
builds exactly that item. -/
theorem C9_manifest_outcomes_witness :
    handleManifest (ManifestResult.success (JsValue.obj []))
      = ⟨NavState.noChaptersMsg, none, 0⟩ ∧
    handleManifest (ManifestResult.success
        (JsValue.obj [((("chapters").toList), JsValue.arr [])]))
      = ⟨NavState.noChaptersMsg, none, 0⟩ ∧
    handleManifest (ManifestResult.success JsValue.null)
      = ⟨NavState.untouched, some manifestErrMsg, 1⟩ ∧
    handleManifest (ManifestResult.success
        (JsValue.obj [((("chapters").toList), JsValue.arr
          [JsValue.obj [((("title").toList), JsValue.str (("Intro").toList)),
                        ((("file").toList), JsValue.str (("01.md").toList))]])]))
      = ⟨NavState.chapterItems
          [⟨JsValue.str (("Intro").toList), JsValue.str (("01.md").toList)⟩],
         none, 0⟩ := by
  refine ⟨?_, ?_, ?_, ?_⟩
  · exact C9_manifest_outcomes.1 (JsValue.obj []) JsValue.undef rfl rfl
  · exact C9_manifest_outcomes.2.1
      (JsValue.obj [((("chapters").toList), JsValue.arr [])])
      (JsValue.arr []) rfl rfl rfl
  · exact C9_manifest_outcomes.2.2.2.1 JsValue.null rfl
  · exact C9_manifest_outcomes.2.2.2.2.2
      (JsValue.obj [((("chapters").toList), JsValue.arr
        [JsValue.obj [((("title").toList), JsValue.str (("Intro").toList)),
                      ((("file").toList), JsValue.str (("01.md").toList))]])])
      [JsValue.obj [((("title").toList), JsValue.str (("Intro").toList)),
                    ((("file").toList), JsValue.str (("01.md").toList))]]
      rfl (by intro hx; exact List.noConfusion hx)
      (by
        intro e he
        have : e = JsValue.obj [((("title").toList), JsValue.str (("Intro").toList)),
            ((("file").toList), JsValue.str (("01.md").toList))] := by
          simpa using he
        subst this
        exact ⟨fun hx => JsValue.noConfusion hx, fun hx => JsValue.noConfusion hx⟩)

end Maktab
